import Mathlib

/-!
# Verification of the GTT23 record codec and secondary-index builder

This file gives a shallow embedding, in Lean 4, of the core of the
`robgjansen/gtt23` repository: the data model of `src/lib.rs` (`Direction`,
`CellCommand`, `RelayCommand`, `Cell`, `Circuit`, the fixed-width ASCII
string encoder `fixedascii_from_str`), the record decoders of
`examples/makedset.rs` and `examples/writecircuits.rs`
(`decode_circuit` / `decode_cells`), the label rules
(`Circuit::label` in the library, `circuit_label` in `makedset.rs` and in
`convertdset.rs`), and the index-building pass of `examples/writeindex.rs`
(`ci_uuid` / `ci_label` / `ci_day` / `ci_port` / `ci_len` plus the
uniqueness check on the uuid index).

Modelling conventions:
* Rust machine integers become `Nat`/`Int` with the bounds checked where the
  source checks them (`try_into` conversions become explicit range checks).
* `f64` values that the claims touch are modelled as exact rationals `ℚ`.
  No claim in scope depends on rounding of a binary float, NaN or the sign
  of zero; JSON cannot even express NaN/infinity.  `std::time::Duration` is
  likewise modelled as an exact number of seconds in `ℚ`;
  `Duration::from_secs_f64` panics on negative or unrepresentably large
  input exactly as documented for the Rust standard library.
* Fallible Rust code returning `anyhow::Result` becomes `DResult`, which has
  a third outcome `.panic` for aborts that Rust performs through a panic
  (out-of-bounds indexing, `Duration::from_secs_f64` on a negative float,
  string slicing off a UTF-8 character boundary).  Error messages are kept
  as short constant strings; the formatted payloads of the originals are not
  load-bearing for any claim.
* `hdf5::types::FixedAscii<N>` (an external collaborator crate) is modelled
  from its documented behaviour: a buffer of exactly `N` bytes whose string
  value is obtained by stripping trailing null bytes; `from_ascii` fails on
  non-ASCII input.
* Rust `HashMap<K, Vec<u32>>` with the `entry(k).or_default().push(v)`
  idiom is modelled as an association list in key-insertion order;
  the spec declares the iteration/insertion order irrelevant, and all
  theorems below are stated up to permutation where order could matter.
-/

/-- Outcome of running a fallible piece of Rust code: a value, a hard error
(`Err` bubbling up through `?` / `bail!`), or a panic (process abort). -/
inductive DResult (α : Type) where
  | ok (a : α)
  | error (msg : String)
  | panic
  deriving DecidableEq, Repr

namespace DResult

def bind : DResult α → (α → DResult β) → DResult β
  | ok a, f => f a
  | error m, _ => error m
  | panic, _ => panic

def map (f : α → β) : DResult α → DResult β
  | ok a => ok (f a)
  | error m => error m
  | panic => panic

instance : Monad DResult where
  pure := ok
  bind := bind
  map := map

def isOk : DResult α → Bool
  | ok _ => true
  | _ => false

@[simp] theorem bind_ok (a : α) (f : α → DResult β) : bind (ok a) f = f a := rfl

@[simp] theorem bind_error (m : String) (f : α → DResult β) :
    bind (error m) f = error m := rfl

@[simp] theorem bind_panic (f : α → DResult β) : bind panic f = panic := rfl

theorem bind_eq_ok {x : DResult α} {f : α → DResult β} {b : β} :
    bind x f = ok b ↔ ∃ a, x = ok a ∧ f a = ok b := by
  cases x <;> simp [bind]

@[simp] theorem map_ok (f : α → β) (a : α) : map f (ok a) = ok (f a) := rfl

theorem map_eq_ok {x : DResult α} {f : α → β} {b : β} :
    map f x = ok b ↔ ∃ a, x = ok a ∧ f a = b := by
  cases x <;> simp [map]

theorem monad_bind_eq (x : DResult α) (f : α → DResult β) :
    (x >>= f) = bind x f := rfl

end DResult

/-! ## Categorical enumerations (`src/lib.rs`) -/

/-- `Direction` from `src/lib.rs`: the direction a cell was traveling. -/
inductive Direction where
  | CLIENT_TO_SERVER
  | SERVER_TO_CLIENT
  | PADDING
  deriving DecidableEq, Repr

/-- The `#[repr(i8)]` discriminant of a `Direction`. -/
def Direction.code : Direction → Int
  | .CLIENT_TO_SERVER => 1
  | .SERVER_TO_CLIENT => -1
  | .PADDING => 0

/-- `CellCommand` from `src/lib.rs`: the control command of a Tor cell. -/
inductive CellCommand where
  | PADDING
  | CREATE
  | CREATED
  | RELAY
  | DESTROY
  | CREATE_FAST
  | CREATED_FAST
  | VERSIONS
  | NETINFO
  | RELAY_EARLY
  | CREATE2
  | CREATED2
  | PADDING_NEGOTIATE
  | VPADDING
  | CERTS
  | AUTH_CHALLENGE
  | AUTHENTICATE
  | AUTHORIZE
  deriving DecidableEq, Repr

/-- The `#[repr(u8)]` discriminant of a `CellCommand`. -/
def CellCommand.code : CellCommand → Nat
  | .PADDING => 0
  | .CREATE => 1
  | .CREATED => 2
  | .RELAY => 3
  | .DESTROY => 4
  | .CREATE_FAST => 5
  | .CREATED_FAST => 6
  | .VERSIONS => 7
  | .NETINFO => 8
  | .RELAY_EARLY => 9
  | .CREATE2 => 10
  | .CREATED2 => 11
  | .PADDING_NEGOTIATE => 12
  | .VPADDING => 128
  | .CERTS => 129
  | .AUTH_CHALLENGE => 130
  | .AUTHENTICATE => 131
  | .AUTHORIZE => 132

/-- `impl TryFrom<u8> for CellCommand` (`src/lib.rs` lines 54-80): a chain of
guards comparing the input byte against each variant's discriminant in
declaration order, with a final catch-all error. -/
def CellCommand.tryFrom (v : Nat) : Except String CellCommand :=
  if v = CellCommand.code .PADDING then .ok .PADDING
  else if v = CellCommand.code .CREATE then .ok .CREATE
  else if v = CellCommand.code .CREATED then .ok .CREATED
  else if v = CellCommand.code .RELAY then .ok .RELAY
  else if v = CellCommand.code .DESTROY then .ok .DESTROY
  else if v = CellCommand.code .CREATE_FAST then .ok .CREATE_FAST
  else if v = CellCommand.code .CREATED_FAST then .ok .CREATED_FAST
  else if v = CellCommand.code .VERSIONS then .ok .VERSIONS
  else if v = CellCommand.code .NETINFO then .ok .NETINFO
  else if v = CellCommand.code .RELAY_EARLY then .ok .RELAY_EARLY
  else if v = CellCommand.code .CREATE2 then .ok .CREATE2
  else if v = CellCommand.code .CREATED2 then .ok .CREATED2
  else if v = CellCommand.code .PADDING_NEGOTIATE then .ok .PADDING_NEGOTIATE
  else if v = CellCommand.code .VPADDING then .ok .VPADDING
  else if v = CellCommand.code .CERTS then .ok .CERTS
  else if v = CellCommand.code .AUTH_CHALLENGE then .ok .AUTH_CHALLENGE
  else if v = CellCommand.code .AUTHENTICATE then .ok .AUTHENTICATE
  else if v = CellCommand.code .AUTHORIZE then .ok .AUTHORIZE
  else .error "Unexpected cell command value"

/-- `RelayCommand` from `src/lib.rs`: the (sub)command of a relay cell. -/
inductive RelayCommand where
  | NOT_PRESENT
  | BEGIN
  | DATA
  | END
  | CONNECTED
  | SENDME
  | EXTEND
  | EXTENDED
  | TRUNCATE
  | TRUNCATED
  | DROP
  | RESOLVE
  | RESOLVED
  | BEGIN_DIR
  | EXTEND2
  | EXTENDED2
  | SIGNAL
  | ESTABLISH_INTRO
  | ESTABLISH_RENDEZVOUS
  | INTRODUCE1
  | INTRODUCE2
  | RENDEZVOUS1
  | RENDEZVOUS2
  | INTRO_ESTABLISHED
  | RENDEZVOUS_ESTABLISHED
  | INTRODUCE_ACK
  | PADDING_NEGOTIATE
  | PADDING_NEGOTIATED
  | XOFF
  | XON
  deriving DecidableEq, Repr

/-- The `#[repr(u8)]` discriminant of a `RelayCommand`. -/
def RelayCommand.code : RelayCommand → Nat
  | .NOT_PRESENT => 0
  | .BEGIN => 1
  | .DATA => 2
  | .END => 3
  | .CONNECTED => 4
  | .SENDME => 5
  | .EXTEND => 6
  | .EXTENDED => 7
  | .TRUNCATE => 8
  | .TRUNCATED => 9
  | .DROP => 10
  | .RESOLVE => 11
  | .RESOLVED => 12
  | .BEGIN_DIR => 13
  | .EXTEND2 => 14
  | .EXTENDED2 => 15
  | .SIGNAL => 16
  | .ESTABLISH_INTRO => 32
  | .ESTABLISH_RENDEZVOUS => 33
  | .INTRODUCE1 => 34
  | .INTRODUCE2 => 35
  | .RENDEZVOUS1 => 36
  | .RENDEZVOUS2 => 37
  | .INTRO_ESTABLISHED => 38
  | .RENDEZVOUS_ESTABLISHED => 39
  | .INTRODUCE_ACK => 40
  | .PADDING_NEGOTIATE => 41
  | .PADDING_NEGOTIATED => 42
  | .XOFF => 43
  | .XON => 44

/-- `impl TryFrom<u8> for RelayCommand` (`src/lib.rs` lines 122-166),
modelled like `CellCommand.tryFrom` but via a search through the variant
list in declaration order (the source's guard chain tests the same codes in
the same order). -/
def RelayCommand.variants : List RelayCommand :=
  [.NOT_PRESENT, .BEGIN, .DATA, .END, .CONNECTED, .SENDME, .EXTEND,
   .EXTENDED, .TRUNCATE, .TRUNCATED, .DROP, .RESOLVE, .RESOLVED, .BEGIN_DIR,
   .EXTEND2, .EXTENDED2, .SIGNAL, .ESTABLISH_INTRO, .ESTABLISH_RENDEZVOUS,
   .INTRODUCE1, .INTRODUCE2, .RENDEZVOUS1, .RENDEZVOUS2, .INTRO_ESTABLISHED,
   .RENDEZVOUS_ESTABLISHED, .INTRODUCE_ACK, .PADDING_NEGOTIATE,
   .PADDING_NEGOTIATED, .XOFF, .XON]

def RelayCommand.tryFrom (v : Nat) : Except String RelayCommand :=
  match RelayCommand.variants.find? (fun r => r.code = v) with
  | some r => .ok r
  | none => .error "Unexpected relay command value"

/-! ## Cells -/

/-- `Cell` from `src/lib.rs`: meta-data of one cell observed by a relay.
The `f64` timestamp is modelled as an exact rational. -/
structure Cell where
  time : ℚ
  direction : Direction
  cell_cmd : CellCommand
  relay_cmd : RelayCommand
  deriving DecidableEq, Repr

/-- `Cell::empty()`: all meta-data zeroed out. -/
def Cell.empty : Cell :=
  { time := 0
    direction := .PADDING
    cell_cmd := .PADDING
    relay_cmd := .NOT_PRESENT }

/-- `impl PartialEq for Cell` (`src/lib.rs` lines 190-197): all four fields
are compared.  (On the modelled domain `f64` equality agrees with `ℚ`
equality.) -/
def Cell.eqb (a b : Cell) : Bool :=
  decide (a.time = b.time) && decide (a.direction = b.direction)
    && decide (a.cell_cmd = b.cell_cmd) && decide (a.relay_cmd = b.relay_cmd)

/-- `f64::total_cmp` restricted to the modelled domain (no NaN and no
negative zero exist in `ℚ`, where `total_cmp` coincides with the numeric
order). -/
def totalCmpQ (a b : ℚ) : Ordering :=
  if a < b then .lt else if a = b then .eq else .gt

/-- `impl Ord for Cell` (`src/lib.rs` lines 207-211): only the `time` field
is compared. -/
def Cell.cmp (a b : Cell) : Ordering :=
  totalCmpQ a.time b.time

/-! ## Fixed-width ASCII buffers (`hdf5::types::FixedAscii`, modelled from
the collaborating crate's documented behaviour) -/

/-- A `FixedAscii<n>` buffer: exactly `n` bytes. -/
def FA (n : ℕ) := { l : List ℕ // l.length = n }

instance (n : ℕ) : DecidableEq (FA n) := fun a b =>
  decidable_of_iff (a.val = b.val) Subtype.ext_iff.symm

/-- String value of a buffer: trailing null bytes are stripped
(`FixedAscii::as_str` / the `len()` used by `is_empty`). -/
def stripTrailingNulls (l : List ℕ) : List ℕ :=
  (l.reverse.dropWhile (· = 0)).reverse

/-- `FixedAscii::is_empty`: the stored string value (trailing nulls
stripped) has length zero. -/
def FA.isEmpty {n : ℕ} (a : FA n) : Bool :=
  stripTrailingNulls a.val = []

/-- The all-null buffer; `fixedascii_null::<n>()` from `src/lib.rs` always
succeeds and returns this value. -/
def faNull (n : ℕ) : FA n :=
  ⟨List.replicate n 0, List.length_replicate n 0⟩

/-! Rust strings are modelled as lists of unicode scalar values (`Nat`),
with their UTF-8 byte serialization made explicit, because
`fixedascii_from_str` mixes *character*-based padding (`format!` width)
with *byte*-based slicing (`&pad[0..N]`). -/

/-- Number of bytes of the UTF-8 encoding of a scalar value. -/
def utf8Len (c : ℕ) : ℕ :=
  if c < 0x80 then 1 else if c < 0x800 then 2 else if c < 0x10000 then 3 else 4

/-- UTF-8 encoding of one scalar value. -/
def utf8Bytes (c : ℕ) : List ℕ :=
  if c < 0x80 then [c]
  else if c < 0x800 then [0xC0 + c / 64, 0x80 + c % 64]
  else if c < 0x10000 then
    [0xE0 + c / 4096, 0x80 + c / 64 % 64, 0x80 + c % 64]
  else
    [0xF0 + c / 262144, 0x80 + c / 4096 % 64, 0x80 + c / 64 % 64,
     0x80 + c % 64]

/-- UTF-8 byte serialization of a string. -/
def strBytes (s : List ℕ) : List ℕ :=
  (s.map utf8Bytes).flatten

/-- `format!("{s:\0<width$}", width = n)`: left-align `s` and fill with the
null character up to `n` *characters* (the `std::fmt` width counts
characters, not bytes). -/
def padFmt (s : List ℕ) (n : ℕ) : List ℕ :=
  s ++ List.replicate (n - s.length) 0

/-- Whether byte offset `i` is a UTF-8 character boundary of `s` (with
offsets past the end of the byte serialization *not* boundaries, matching
the out-of-range slice panic). -/
def isCharBoundary : List ℕ → ℕ → Bool
  | _, 0 => true
  | [], _ + 1 => false
  | c :: cs, i + 1 =>
    if i + 1 < utf8Len c then false else isCharBoundary cs (i + 1 - utf8Len c)

/-- `fixedascii_from_str::<n>` from `src/lib.rs` lines 322-326:
pad `s` with nulls to `n` characters, slice the first `n` *bytes*
(a slice off a character boundary is a Rust panic), and run
`FixedAscii::<n>::from_ascii` on the slice, which fails with a
`StringError` (the spec's `EncodingError`) when the slice contains a
non-ASCII byte. -/
def fixedascii_from_str (n : ℕ) (s : List ℕ) : DResult (FA n) :=
  let pad := padFmt s n
  if isCharBoundary pad n then
    let b := strBytes pad
    if hb : n ≤ b.length then
      let slice := b.take n
      if slice.all (· < 128) then
        .ok ⟨slice, by rw [List.length_take]; exact Nat.min_eq_left hb⟩
      else .error "EncodingError"
    else .panic
  else .panic

/-! ## Circuits and the three label rules -/

/-- `Circuit` from `src/lib.rs` lines 216-237.  The `cells` payload is kept
as the decoded list (always padded to length 5000 by the decoders). -/
structure Circuit where
  uuid : FA 32
  domain : FA 44
  shortest_private_suffix : FA 44
  day : ℕ
  port : ℕ
  len : ℕ
  cells : List Cell
  deriving DecidableEq

/-- `Circuit::label` from `src/lib.rs` lines 254-260: the
`shortest_private_suffix` unless it is empty, in which case the `domain`. -/
def Circuit.label (c : Circuit) : FA 44 :=
  if c.shortest_private_suffix.isEmpty then c.domain
  else c.shortest_private_suffix

/-- `circuit_label` from `examples/makedset.rs` lines 157-166: compares the
suffix against the all-null sentinel (`fixedascii_null::<44>()`).  The Rust
function returns `anyhow::Result` but has no failure path. -/
def makedset_circuit_label (c : Circuit) : FA 44 :=
  if c.shortest_private_suffix ≠ faNull 44 then c.shortest_private_suffix
  else c.domain

/-- `circuit_label` from `examples/convertdset.rs` lines 143-149: the same
sentinel comparison, but returning the `String` value (`to_string` strips
trailing nulls). -/
def convertdset_circuit_label (c : Circuit) : List ℕ :=
  if c.shortest_private_suffix ≠ faNull 44 then
    stripTrailingNulls c.shortest_private_suffix.val
  else stripTrailingNulls c.domain.val

/-! ## Lemmas about the string model and labels -/

theorem stripTrailingNulls_eq_nil_iff (l : List ℕ) :
    stripTrailingNulls l = [] ↔ ∀ x ∈ l, x = 0 := by
  simp [stripTrailingNulls, List.dropWhile_eq_nil_iff]

theorem FA.isEmpty_iff {n : ℕ} (a : FA n) : a.isEmpty = true ↔ a = faNull n := by
  have hlen := a.property
  rw [FA.isEmpty, decide_eq_true_iff, stripTrailingNulls_eq_nil_iff]
  constructor
  · intro h
    apply Subtype.ext
    exact List.eq_replicate_iff.mpr ⟨hlen, h⟩
  · intro h
    rw [Subtype.ext_iff] at h
    rw [h]
    simp [faNull]

theorem faNull_isEmpty (n : ℕ) : (faNull n).isEmpty = true :=
  (FA.isEmpty_iff (faNull n)).mpr rfl

/-- **C9.** The three label implementations agree on every `Circuit`:
`Circuit::label` in the library (suffix if non-empty, else domain),
`circuit_label` in `makedset.rs` (suffix compared against the all-null
sentinel), and `circuit_label` in `convertdset.rs` (the same test returning
the stripped string value).  The first two agree byte-for-byte, and the
third returns exactly the stripped string value of both. -/
theorem claim_C9_label_equivalence (c : Circuit) :
    Circuit.label c = makedset_circuit_label c ∧
      stripTrailingNulls (Circuit.label c).val = convertdset_circuit_label c := by
  by_cases h : c.shortest_private_suffix = faNull 44
  · have he : c.shortest_private_suffix.isEmpty = true :=
      (FA.isEmpty_iff _).mpr h
    simp [Circuit.label, makedset_circuit_label, convertdset_circuit_label, he,
      h, faNull_isEmpty]
  · have he : c.shortest_private_suffix.isEmpty = false := by
      cases hb : c.shortest_private_suffix.isEmpty
      · rfl
      · exact absurd ((FA.isEmpty_iff _).mp hb) h
    simp [Circuit.label, makedset_circuit_label, convertdset_circuit_label, he, h]

set_option maxRecDepth 4096 in
/-- **C4.** For every byte value `c`, `CellCommand::try_from(c)` succeeds
exactly when `c ∈ {0,…,12} ∪ {128,…,132}`, fails with the
unrecognized-code error otherwise, and on success returns the variant whose
discriminant is `c` (never a default variant). -/
theorem claim_C4_cell_command_totality :
    ∀ c : Fin 256,
      ((CellCommand.tryFrom c.val).isOk = true ↔
          (c.val ≤ 12 ∨ (128 ≤ c.val ∧ c.val ≤ 132))) ∧
        ((CellCommand.tryFrom c.val).toOption.all fun cmd =>
          cmd.code == c.val) = true := by
  decide

/-- **C10.** The total order on `Cell` compares only the `time` field: two
cells with equal time but different direction, cell command, or relay
command compare as `Equal` under `Cell::cmp` even though `==` (which
compares all four fields) rejects them, so `cmp` returning `Equal` does not
imply equality. -/
theorem claim_C10_cell_order_ignores_metadata (a b : Cell)
    (ht : a.time = b.time)
    (hne : a.direction ≠ b.direction ∨ a.cell_cmd ≠ b.cell_cmd ∨
      a.relay_cmd ≠ b.relay_cmd) :
    Cell.cmp a b = .eq ∧ Cell.eqb a b = false ∧ a ≠ b := by
  refine ⟨?_, ?_, ?_⟩
  · simp [Cell.cmp, totalCmpQ, ht]
  · rcases hne with h | h | h <;> simp [Cell.eqb, ht, h]
  · intro hab
    subst hab
    rcases hne with h | h | h <;> exact h rfl

/-- Witness for C10 at a concrete pair of cells differing only in
direction. -/
theorem claim_C10_witness :
    Cell.cmp ⟨0, .CLIENT_TO_SERVER, .PADDING, .NOT_PRESENT⟩
        ⟨0, .SERVER_TO_CLIENT, .PADDING, .NOT_PRESENT⟩ = .eq ∧
      Cell.eqb ⟨0, .CLIENT_TO_SERVER, .PADDING, .NOT_PRESENT⟩
        ⟨0, .SERVER_TO_CLIENT, .PADDING, .NOT_PRESENT⟩ = false ∧
      (⟨0, .CLIENT_TO_SERVER, .PADDING, .NOT_PRESENT⟩ : Cell) ≠
        ⟨0, .SERVER_TO_CLIENT, .PADDING, .NOT_PRESENT⟩ :=
  claim_C10_cell_order_ignores_metadata _ _ rfl (Or.inl (by decide))

/-! ## The fixed-width string encoder (claims C5, C6) -/

theorem padFmt_length_of_le {s : List ℕ} {n : ℕ} (h : s.length ≤ n) :
    (padFmt s n).length = n := by
  simp [padFmt]
  omega

theorem utf8Bytes_ascii {c : ℕ} (h : c < 128) : utf8Bytes c = [c] := by
  simp [utf8Bytes, h]

theorem strBytes_ascii {s : List ℕ} (h : ∀ c ∈ s, c < 128) :
    strBytes s = s := by
  induction s with
  | nil => rfl
  | cons a t ih =>
    have ha : a < 128 := h a (List.mem_cons_self a t)
    have ht : ∀ c ∈ t, c < 128 := fun c hc => h c (List.mem_cons_of_mem a hc)
    simp [strBytes] at ih ⊢
    rw [utf8Bytes_ascii ha, ih ht]
    rfl

theorem isCharBoundary_ascii {s : List ℕ} (h : ∀ c ∈ s, c < 128) :
    ∀ i, isCharBoundary s i = decide (i ≤ s.length) := by
  induction s with
  | nil =>
    intro i
    cases i with
    | zero => rfl
    | succ j => simp [isCharBoundary]
  | cons a t ih =>
    intro i
    cases i with
    | zero => rfl
    | succ j =>
      have ha : a < 128 := h a (List.mem_cons_self a t)
      have ht : ∀ c ∈ t, c < 128 := fun c hc => h c (List.mem_cons_of_mem a hc)
      have hk : utf8Len a = 1 := by simp [utf8Len, ha]
      simp only [isCharBoundary, hk]
      rw [if_neg (by omega)]
      rw [Nat.add_sub_cancel, ih ht]
      simp only [List.length_cons, Nat.add_le_add_iff_right]

theorem utf8Len_eq_length (c : ℕ) : (utf8Bytes c).length = utf8Len c := by
  simp only [utf8Bytes, utf8Len]
  split <;> try rfl
  split <;> try rfl
  split <;> rfl

theorem strBytes_cons (a : ℕ) (t : List ℕ) :
    strBytes (a :: t) = utf8Bytes a ++ strBytes t := by
  simp [strBytes]

theorem strBytes_append (s t : List ℕ) :
    strBytes (s ++ t) = strBytes s ++ strBytes t := by
  simp [strBytes]

theorem isCharBoundary_le_length {s : List ℕ} :
    ∀ {i : ℕ}, isCharBoundary s i = true → i ≤ (strBytes s).length := by
  induction s with
  | nil =>
    intro i hi
    cases i with
    | zero => simp [strBytes]
    | succ j => simp [isCharBoundary] at hi
  | cons a t ih =>
    intro i hi
    cases i with
    | zero => exact Nat.zero_le _
    | succ j =>
      simp only [isCharBoundary] at hi
      by_cases hlt : j + 1 < utf8Len a
      · rw [if_pos hlt] at hi
        exact absurd hi (by simp)
      · rw [if_neg hlt] at hi
        have := ih hi
        rw [strBytes_cons, List.length_append, utf8Len_eq_length]
        omega

/-- Evaluation of the encoder on ASCII input that fits: the result is the
null-padded input. -/
theorem fixedascii_ascii_eval {n : ℕ} {s : List ℕ}
    (hascii : ∀ c ∈ s, c < 128) (hlen : s.length ≤ n) :
    fixedascii_from_str n s = .ok ⟨padFmt s n, padFmt_length_of_le hlen⟩ := by
  have hpadascii : ∀ c ∈ padFmt s n, c < 128 := by
    intro c hc
    rcases List.mem_append.mp hc with h | h
    · exact hascii c h
    · have := List.eq_of_mem_replicate h
      omega
  have hpadlen : (padFmt s n).length = n := padFmt_length_of_le hlen
  have hbytes : strBytes (padFmt s n) = padFmt s n := strBytes_ascii hpadascii
  have hbound : isCharBoundary (padFmt s n) n = true := by
    rw [isCharBoundary_ascii hpadascii]
    simp [hpadlen]
  rw [fixedascii_from_str]
  simp only [hbound, if_true, hbytes, hpadlen]
  rw [dif_pos (Nat.le_refl n)]
  have htake : (padFmt s n).take n = padFmt s n :=
    List.take_of_length_le (le_of_eq hpadlen)
  have hall : ((padFmt s n).take n).all (· < 128) = true := by
    rw [htake]
    exact List.all_eq_true.mpr fun c hc => decide_eq_true (hpadascii c hc)
  simp only [hall, if_true]
  congr 1
  exact Subtype.ext htake

theorem stripTrailingNulls_append_replicate (l : List ℕ) (k : ℕ) :
    stripTrailingNulls (l ++ List.replicate k 0) = stripTrailingNulls l := by
  rw [stripTrailingNulls, stripTrailingNulls, List.reverse_append,
    List.reverse_replicate]
  congr 1
  induction k with
  | zero => simp
  | succ m ih => simp [List.replicate_succ, ih]

theorem stripTrailingNulls_of_getLast? {s : List ℕ} (h : s.getLast? ≠ some 0) :
    stripTrailingNulls s = s := by
  match hr : s.reverse with
  | [] =>
    have : s = [] := by simpa using congrArg List.reverse hr
    simp [this, stripTrailingNulls]
  | a :: t =>
    have hha : s.getLast? = some a := by
      rw [← List.head?_reverse, hr]
      rfl
    have ha : ¬(a = 0) := fun h0 => h (h0 ▸ hha)
    rw [stripTrailingNulls, hr, List.dropWhile_cons]
    simp only [decide_eq_true_eq, ha, if_false]
    rw [← hr, List.reverse_reverse]

/-- **C5 (amended).** For every ASCII string `s` with `len(s) ≤ n` that does
not end in a null byte, encoding via `fixedascii_from_str` yields the
null-padded buffer and decoding (stripping trailing nulls) returns `s`
exactly.  (The "does not end in a null byte" condition is forced: the claim
as stated fails for ASCII strings with trailing nulls, see the
counterexample.) -/
theorem claim_C5_roundtrip (n : ℕ) (s : List ℕ)
    (hascii : ∀ c ∈ s, c < 128) (hlen : s.length ≤ n)
    (hlast : s.getLast? ≠ some 0) :
    fixedascii_from_str n s = .ok ⟨padFmt s n, padFmt_length_of_le hlen⟩ ∧
      stripTrailingNulls (padFmt s n) = s := by
  refine ⟨fixedascii_ascii_eval hascii hlen, ?_⟩
  rw [padFmt, stripTrailingNulls_append_replicate]
  exact stripTrailingNulls_of_getLast? hlast

/-- Witness for C5 at `s = "hi"`, `n = 4`. -/
theorem claim_C5_witness :
    fixedascii_from_str 4 [104, 105] =
        .ok ⟨padFmt [104, 105] 4, padFmt_length_of_le (by decide)⟩ ∧
      stripTrailingNulls (padFmt [104, 105] 4) = [104, 105] :=
  claim_C5_roundtrip 4 [104, 105] (by decide) (by decide) (by decide)

/-- **C5 counterexample.** The claim as stated ("for *every* ASCII string
`s` with `len(s) ≤ n`") is false: the one-byte ASCII string `"\0"` (a null
byte is ASCII) encodes to the all-null buffer, which decodes to the empty
string, not to `"\0"`. -/
theorem claim_C5_counterexample :
    fixedascii_from_str 2 [0] = .ok (faNull 2) ∧
      stripTrailingNulls (faNull 2).val = [] ∧ ([] : List ℕ) ≠ [0] := by
  refine ⟨?_, by decide, by decide⟩
  rw [show faNull 2 = ⟨padFmt [0] 2, padFmt_length_of_le (by decide)⟩ from
    Subtype.ext (by decide)]
  exact fixedascii_ascii_eval (by decide) (by decide)

/-! C6: what happens on non-ASCII input. -/

theorem utf8Bytes_head_ge {a : ℕ} (h : 128 ≤ a) :
    128 ≤ (utf8Bytes a).getD 0 0 := by
  rw [utf8Bytes]
  rw [if_neg (by omega)]
  split
  · simp; omega
  · split
    · simp; omega
    · simp; omega

theorem utf8Bytes_ne_nil (a : ℕ) : utf8Bytes a ≠ [] := by
  rw [utf8Bytes]
  split
  · simp
  · split
    · simp
    · split
      · simp
      · simp

/-- If a non-ASCII character occurs among the first `n` characters of `s`,
then a non-ASCII byte occurs among the first `n` bytes of the UTF-8
serialization of `s`. -/
theorem nonascii_take_byte :
    ∀ (s : List ℕ) (n : ℕ), (∃ c ∈ s.take n, 128 ≤ c) →
      ∃ i < n, 128 ≤ (strBytes s).getD i 0 := by
  intro s
  induction s with
  | nil => intro n h; simp at h
  | cons a t ih =>
    intro n h
    cases n with
    | zero => simp at h
    | succ m =>
      by_cases ha : 128 ≤ a
      · refine ⟨0, Nat.succ_pos m, ?_⟩
        rw [strBytes_cons]
        have hne := utf8Bytes_ne_nil a
        match hu : utf8Bytes a with
        | [] => exact absurd hu hne
        | b :: rest =>
          have := utf8Bytes_head_ge ha
          rw [hu] at this
          simpa using this
      · rcases h with ⟨c, hc, hc128⟩
        rw [List.take_succ_cons] at hc
        rcases List.mem_cons.mp hc with rfl | hct
        · exact absurd hc128 ha
        · rcases ih m ⟨c, hct, hc128⟩ with ⟨i, hi, hbyte⟩
          refine ⟨i + 1, Nat.succ_lt_succ hi, ?_⟩
          rw [strBytes_cons, utf8Bytes_ascii (by omega)]
          simpa using hbyte

/-- **C6 (amended).** If `s` contains a non-ASCII character among the
characters that survive truncation to the first `n` bytes, then
`fixedascii_from_str::<n>(s)` never returns a successfully encoded buffer:
it fails with the encoding error, or panics when byte offset `n` is not a
character boundary of the padded string.  (Both restrictions are forced by
counterexamples: a non-ASCII byte *beyond* the first `n` bytes is truncated
away and the call succeeds, and a character straddling offset `n` makes the
slice `&pad[0..n]` panic instead of returning an error.) -/
theorem claim_C6_nonascii (n : ℕ) (s : List ℕ)
    (h : ∃ c ∈ s.take n, 128 ≤ c) :
    fixedascii_from_str n s = .error "EncodingError" ∨
      fixedascii_from_str n s = .panic := by
  rcases nonascii_take_byte s n h with ⟨i, hin, hbyte⟩
  have hilen : i < (strBytes s).length := by
    by_contra hge
    rw [List.getD_eq_default _ _ (by omega)] at hbyte
    omega
  have hpadbyte : 128 ≤ (strBytes (padFmt s n)).getD i 0 := by
    rw [padFmt, strBytes_append, List.getD_append _ _ _ _ hilen]
    exact hbyte
  rw [fixedascii_from_str]
  cases hbound : isCharBoundary (padFmt s n) n
  · right
    simp
  · left
    have hblen : n ≤ (strBytes (padFmt s n)).length :=
      isCharBoundary_le_length hbound
    simp only [if_true]
    rw [dif_pos hblen]
    have hmem : (strBytes (padFmt s n)).getD i 0 ∈
        (strBytes (padFmt s n)).take n := by
      have hitake : i < ((strBytes (padFmt s n)).take n).length := by
        rw [List.length_take]
        omega
      have : ((strBytes (padFmt s n)).take n).getD i 0 =
          (strBytes (padFmt s n)).getD i 0 := by
        rw [List.getD_eq_getElem _ _ hitake, List.getElem_take,
          List.getD_eq_getElem]
      rw [← this, List.getD_eq_getElem _ _ hitake]
      exact List.getElem_mem hitake
    have hallf : ((strBytes (padFmt s n)).take n).all (· < 128) = false := by
      by_contra htr
      have hall := List.all_eq_true.mp (eq_true_of_ne_false htr)
      have := of_decide_eq_true (hall _ hmem)
      omega
    rw [hallf]
    simp

/-- Witness for C6 at `s = "é"` (scalar value 233), `n = 2`: the padded
string is `é` followed by one null, byte 2 is a character boundary, and the
2-byte slice `[0xC3, 0xA9]` fails the ASCII check. -/
theorem claim_C6_witness :
    fixedascii_from_str 2 [233] = .error "EncodingError" ∨
      fixedascii_from_str 2 [233] = .panic :=
  claim_C6_nonascii 2 [233] ⟨233, by decide, by decide⟩

/-- **C6 counterexample.** The claim as stated ("for every capacity `n` and
*every* input string containing a non-ASCII byte") is false: for `n = 2`
and `s = "abé"`, truncation to the first two bytes removes the non-ASCII
character entirely, and the call *succeeds* with buffer `"ab"` instead of
failing with an `EncodingError`. -/
theorem claim_C6_counterexample :
    fixedascii_from_str 2 [97, 98, 233] = .ok ⟨[97, 98], rfl⟩ ∧
      233 ∈ [97, 98, 233] ∧ 128 ≤ 233 := by
  refine ⟨?_, by decide, by decide⟩
  decide

/-! ## JSON values (model of `serde_json::Value` restricted to what the
decoders consume) -/

/-- `serde_json` numbers: an unsigned 64-bit integer, a negative 64-bit
integer, or a finite double (modelled exactly as a rational; JSON cannot
express NaN or infinities). -/
inductive JNum where
  | posInt (n : ℕ)
  | negInt (z : ℤ)
  | float (q : ℚ)

/-- `Number::as_f64` never fails on a parsed number (the integer-to-double
cast is modelled exactly). -/
def JNum.asF64 : JNum → ℚ
  | .posInt n => n
  | .negInt z => z
  | .float q => q

/-- `Number::as_u64`: only unsigned integers. -/
def JNum.asU64 : JNum → Option ℕ
  | .posInt n => some n
  | _ => none

/-- `Number::as_i64`: signed integers, and unsigned ones that fit. -/
def JNum.asI64 : JNum → Option ℤ
  | .posInt n => if n < 2 ^ 63 then some (n : ℤ) else none
  | .negInt z => some z
  | .float _ => none

/-- `serde_json::Value`.  Strings are lists of unicode scalar values,
objects are association lists keyed by string. -/
inductive JValue where
  | null
  | bool (b : Bool)
  | num (jn : JNum)
  | str (s : List ℕ)
  | arr (elems : List JValue)
  | obj (fields : List (List ℕ × JValue))

def JValue.asF64 : JValue → Option ℚ
  | .num jn => some jn.asF64
  | _ => none

def JValue.asU64 : JValue → Option ℕ
  | .num jn => jn.asU64
  | _ => none

def JValue.asI64 : JValue → Option ℤ
  | .num jn => jn.asI64
  | _ => none

def JValue.asStr : JValue → Option (List ℕ)
  | .str s => some s
  | _ => none

def JValue.asArr : JValue → Option (List JValue)
  | .arr l => some l
  | _ => none

def JValue.isNull : JValue → Bool
  | .null => true
  | _ => false

/-- `serde_json::Map::get`. -/
def objGet (fields : List (List ℕ × JValue)) (k : List ℕ) : Option JValue :=
  (fields.find? fun f => f.1 == k).map (·.2)

/-- ASCII text literal helper for JSON keys and identifiers. -/
def strLit (s : String) : List ℕ :=
  s.toList.map fun c => c.toNat

/-! ## Decoding cell arrays (claim C1)

`decode_cells` in `examples/makedset.rs` (4-element cells) and in
`examples/writecircuits.rs` (5-element cells).  Both allocate
`[Cell::empty(); 5000]` and then write `cells[i]` for every entry `i` of the
input array *without any bound check of their own*: for `i ≥ 5000` the
indexing `cells[i]` is an out-of-bounds Rust panic.  Within one loop
iteration the source evaluates, in order: `as_array` (error), the arity
check (error), the `time` value `json_cell[0].as_f64()` (error) — and only
then the place expression `cells[i].time`, whose bounds check panics;
assignments in Rust evaluate the value operand before the place operand. -/

def decodeNetOp (v : JValue) : DResult Direction :=
  match v.asI64 with
  | none => .error "net_op to i64"
  | some nop =>
    if nop = 0 then .ok .CLIENT_TO_SERVER
    else if nop = 1 then .ok .SERVER_TO_CLIENT
    else .error "unexpected net_op"

def decodeCellCmdField (v : JValue) : DResult CellCommand :=
  match v.asU64 with
  | none => .error "cell_cmd to u64"
  | some u =>
    if 256 ≤ u then .error "u8 conversion"
    else match CellCommand.tryFrom u with
      | .ok c => .ok c
      | .error m => .error m

def decodeRelayCmdField (v : JValue) : DResult RelayCommand :=
  match v.asU64 with
  | none => .error "relay_cmd to u64"
  | some u =>
    if 256 ≤ u then .error "u8 conversion"
    else match RelayCommand.tryFrom u with
      | .ok c => .ok c
      | .error m => .error m

/-- One iteration of the `makedset.rs` `decode_cells` loop at index `i`:
4-element cells `[time, net_op, cell_cmd, relay_cmd]`. -/
def decodeCellEntry4 (i : ℕ) (jc : JValue) : DResult Cell :=
  match jc.asArr with
  | none => .error "cell to array"
  | some a =>
    if a.length ≠ 4 then .error "expected 4 cell elements"
    else match (a.getD 0 .null).asF64 with
      | none => .error "time to f64"
      | some t =>
        if 5000 ≤ i then .panic
        else
          DResult.bind (decodeNetOp (a.getD 1 .null)) fun dir =>
          DResult.bind (decodeCellCmdField (a.getD 2 .null)) fun cc =>
          DResult.bind (decodeRelayCmdField (a.getD 3 .null)) fun rc =>
          .ok ⟨t, dir, cc, rc⟩

/-- One iteration of the `writecircuits.rs` `decode_cells` loop at index
`i`: 5-element cells `[time, side, net_op, cell_cmd, relay_cmd]` (the
`side` element at index 1 is ignored by the source). -/
def decodeCellEntry5 (i : ℕ) (jc : JValue) : DResult Cell :=
  match jc.asArr with
  | none => .error "cell to array"
  | some a =>
    if a.length ≠ 5 then .error "expected 5 cell elements"
    else match (a.getD 0 .null).asF64 with
      | none => .error "time to f64"
      | some t =>
        if 5000 ≤ i then .panic
        else
          DResult.bind (decodeNetOp (a.getD 2 .null)) fun dir =>
          DResult.bind (decodeCellCmdField (a.getD 3 .null)) fun cc =>
          DResult.bind (decodeRelayCmdField (a.getD 4 .null)) fun rc =>
          .ok ⟨t, dir, cc, rc⟩

def decodeCellsAux (dec : ℕ → JValue → DResult Cell) (i : ℕ) :
    List JValue → DResult (List Cell)
  | [] => .ok []
  | jc :: rest =>
    DResult.bind (dec i jc) fun c =>
    DResult.map (fun l => c :: l) (decodeCellsAux dec (i + 1) rest)

/-- `decode_cells` from `examples/makedset.rs` lines 306-354: the valid
prefix followed by the padding to 5000 `Cell::empty()` values. -/
def decode_cells_makedset (js : List JValue) : DResult (List Cell) :=
  DResult.map (fun l => l ++ List.replicate (5000 - l.length) Cell.empty)
    (decodeCellsAux decodeCellEntry4 0 js)

/-- `decode_cells` from `examples/writecircuits.rs` lines 316-367. -/
def decode_cells_writecircuits (js : List JValue) : DResult (List Cell) :=
  DResult.map (fun l => l ++ List.replicate (5000 - l.length) Cell.empty)
    (decodeCellsAux decodeCellEntry5 0 js)

/-- A well-formed 4-element input cell `[0.0, 0, 0, 0]`. -/
def goodCell4 : JValue :=
  .arr [.num (.posInt 0), .num (.posInt 0), .num (.posInt 0), .num (.posInt 0)]

/-- A well-formed 5-element input cell `[0.0, 1, 0, 0, 0]`. -/
def goodCell5 : JValue :=
  .arr [.num (.posInt 0), .num (.posInt 1), .num (.posInt 0), .num (.posInt 0),
    .num (.posInt 0)]

theorem decodeCellEntry4_good (i : ℕ) :
    decodeCellEntry4 i goodCell4 =
      if 5000 ≤ i then .panic
      else .ok ⟨0, .CLIENT_TO_SERVER, .PADDING, .NOT_PRESENT⟩ := rfl

theorem decodeCellEntry5_good (i : ℕ) :
    decodeCellEntry5 i goodCell5 =
      if 5000 ≤ i then .panic
      else .ok ⟨0, .CLIENT_TO_SERVER, .PADDING, .NOT_PRESENT⟩ := rfl

theorem decodeCellsAux_replicate4_panic :
    ∀ (k i : ℕ), 5000 < i + k → i ≤ 5000 →
      decodeCellsAux decodeCellEntry4 i (List.replicate k goodCell4) = .panic := by
  intro k
  induction k with
  | zero => intro i h1 h2; exact absurd h1 (by omega)
  | succ m ih =>
    intro i h1 h2
    rw [List.replicate_succ]
    simp only [decodeCellsAux]
    rcases Nat.lt_or_ge i 5000 with hi | hi
    · rw [decodeCellEntry4_good, if_neg (Nat.not_le.mpr hi), DResult.bind_ok,
        ih (i + 1) (by omega) (by omega)]
      rfl
    · have hi5 : i = 5000 := by omega
      subst hi5
      rw [decodeCellEntry4_good, if_pos (le_refl 5000)]
      rfl

theorem decodeCellsAux_replicate5_panic :
    ∀ (k i : ℕ), 5000 < i + k → i ≤ 5000 →
      decodeCellsAux decodeCellEntry5 i (List.replicate k goodCell5) = .panic := by
  intro k
  induction k with
  | zero => intro i h1 h2; exact absurd h1 (by omega)
  | succ m ih =>
    intro i h1 h2
    rw [List.replicate_succ]
    simp only [decodeCellsAux]
    rcases Nat.lt_or_ge i 5000 with hi | hi
    · rw [decodeCellEntry5_good, if_neg (Nat.not_le.mpr hi), DResult.bind_ok,
        ih (i + 1) (by omega) (by omega)]
      rfl
    · have hi5 : i = 5000 := by omega
      subst hi5
      rw [decodeCellEntry5_good, if_pos (le_refl 5000)]
      rfl

/-- **C1.** On an input whose `cells` array has 5001 well-formed entries,
both `decode_cells` variants *panic* (out-of-bounds write into the fixed
`cells[5000]` buffer at index 5000) instead of rejecting the line with a
hard error as the specification requires: the claimed bound check does not
exist in the code. -/
theorem claim_C1_oversized_cells_panic :
    decode_cells_makedset (List.replicate 5001 goodCell4) = .panic ∧
      decode_cells_writecircuits (List.replicate 5001 goodCell5) = .panic := by
  constructor
  · rw [decode_cells_makedset,
      decodeCellsAux_replicate4_panic 5001 0 (by omega) (by omega)]
    rfl
  · rw [decode_cells_writecircuits,
      decodeCellsAux_replicate5_panic 5001 0 (by omega) (by omega)]
    rfl

/-! ## The time-filtered record decoder (`examples/writecircuits.rs`,
claims C7 and C8) -/

/-- `Duration::from_secs_f64`: panics (as documented for the Rust standard
library) when the value is negative or does not fit a `Duration`; the
nanosecond rounding is immaterial on the modelled exact domain. -/
def durationFromSecsF64 (q : ℚ) : DResult ℚ :=
  if q < 0 ∨ (2 ^ 64 : ℚ) ≤ q then .panic else .ok q

/-- `Duration::as_secs` on a non-negative duration: whole seconds
(truncation). -/
def durAsSecs (q : ℚ) : ℕ :=
  q.num.toNat / q.den

def keyTimeCreated : List ℕ := strLit "time_created"

def keyDomain : List ℕ := strLit "domain"

def keySPS : List ℕ := strLit "shortest_private_suffix"

def keyPort : List ℕ := strLit "port"

def keyCells : List ℕ := strLit "cells"

/-- `obj.get(k).context(msg)?`. -/
def jsonKey (fields : List (List ℕ × JValue)) (k : List ℕ) (m : String) :
    DResult JValue :=
  match objGet fields k with
  | some v => .ok v
  | none => .error m

/-- `.as_f64().context(msg)?`. -/
def jsonAsF64 (v : JValue) (m : String) : DResult ℚ :=
  match v.asF64 with
  | some q => .ok q
  | none => .error m

/-- `.as_u64().context(msg)?`. -/
def jsonAsU64 (v : JValue) (m : String) : DResult ℕ :=
  match v.asU64 with
  | some n => .ok n
  | none => .error m

/-- `.as_str().context(msg)?`. -/
def jsonAsStr (v : JValue) (m : String) : DResult (List ℕ) :=
  match v.asStr with
  | some s => .ok s
  | none => .error m

/-- `.as_array().context(msg)?`. -/
def jsonAsArr (v : JValue) (m : String) : DResult (List JValue) :=
  match v.asArr with
  | some l => .ok l
  | none => .error m

/-- The tail of `decode_circuit` in `examples/writecircuits.rs`
(lines 270-313), after `day` has been computed: extract `domain`,
`shortest_private_suffix` (null sentinel when absent), `port` (u16),
`cells`; then build the `Circuit`, encoding a fresh uuid (the injected
unique-identifier string `uuidStr`) and converting `cells.len()` to `u16`.
The field evaluation order matches the source, including the struct-literal
order `uuid`, then `len`, then `decode_cells`. -/
def decode_circuit_wc_rest (fields : List (List ℕ × JValue)) (day : ℕ)
    (uuidStr : List ℕ) : DResult (Option Circuit) :=
  DResult.bind (jsonKey fields keyDomain "key domain missing") fun dv =>
  DResult.bind (jsonAsStr dv "domain to str") fun ds =>
  DResult.bind (fixedascii_from_str 44 ds) fun domain =>
  DResult.bind
    (jsonKey fields keySPS "key shortest_private_suffix missing") fun sv =>
  DResult.bind
    (if sv.isNull then fixedascii_from_str 44 []
     else
       DResult.bind (jsonAsStr sv "shortest_private_suffix to str") fun ss =>
       fixedascii_from_str 44 ss) fun sps =>
  DResult.bind (jsonKey fields keyPort "key port missing") fun pv =>
  DResult.bind (jsonAsU64 pv "day to u64") fun pn =>
  if 65536 ≤ pn then .error "port u16 conversion"
  else
    DResult.bind (jsonKey fields keyCells "key cells missing") fun cv =>
    DResult.bind (jsonAsArr cv "cells to array") fun cells =>
    DResult.bind (fixedascii_from_str 32 uuidStr) fun uuid =>
    if 65536 ≤ cells.length then .error "len u16 conversion"
    else
      DResult.bind (decode_cells_writecircuits cells) fun cellsArr =>
      .ok (some
        { uuid := uuid
          domain := domain
          shortest_private_suffix := sps
          day := day
          port := pn
          len := cells.length
          cells := cellsArr })

/-- The `day` computation of `decode_circuit` in `examples/writecircuits.rs`
lines 260-268: `(created.saturating_sub(begin).as_secs() / 86400) + 1`
converted to `u8` when a `begin` bound is present, otherwise `0`.
(`Duration` subtraction saturates at zero.) -/
def dayFromWindow : Option ℚ → ℚ → DResult ℕ
  | some t, created =>
    if 256 ≤ durAsSecs (max (created - t) 0) / 86400 + 1 then
      .error "day u8 conversion"
    else .ok (durAsSecs (max (created - t) 0) / 86400 + 1)
  | none, _ => .ok 0

/-- `decode_circuit` from `examples/writecircuits.rs` lines 228-314, after
JSON parsing, on the parsed value: extract `time_created`, convert it to a
`Duration` (panics when negative), drop the record (`Ok(None)`) when it lies
outside the `[begin, end]` window, compute the `day` bucket, then decode the
remaining fields. -/
def decode_circuit_writecircuits (v : JValue) (tb te : Option ℚ)
    (uuidStr : List ℕ) : DResult (Option Circuit) :=
  match v with
  | .obj fields =>
    DResult.bind
      (jsonKey fields keyTimeCreated "key time_created missing") fun tcv =>
    DResult.bind (jsonAsF64 tcv "time_created to f64") fun tc =>
    DResult.bind (durationFromSecsF64 tc) fun created =>
    if (match tb with | some t => decide (created < t) | none => false) ||
        (match te with | some t => decide (t < created) | none => false) then
      .ok none
    else
      DResult.bind (dayFromWindow tb created) fun day =>
      decode_circuit_wc_rest fields day uuidStr
  | _ => .error "Unable to convert serde value into object"

theorem jsonKey_ok_inv {fields : List (List ℕ × JValue)} {k : List ℕ}
    {m : String} {v : JValue} (h : jsonKey fields k m = .ok v) :
    objGet fields k = some v := by
  rw [jsonKey] at h
  cases ho : objGet fields k <;> rw [ho] at h
  · exact DResult.noConfusion h
  · exact congrArg some (DResult.ok.inj h)

theorem jsonAsF64_ok_inv {v : JValue} {m : String} {q : ℚ}
    (h : jsonAsF64 v m = .ok q) : v.asF64 = some q := by
  rw [jsonAsF64] at h
  cases ho : v.asF64 <;> rw [ho] at h
  · exact DResult.noConfusion h
  · exact congrArg some (DResult.ok.inj h)

theorem durationFromSecsF64_ok_inv {q r : ℚ}
    (h : durationFromSecsF64 q = .ok r) :
    r = q ∧ ¬(q < 0 ∨ (2 ^ 64 : ℚ) ≤ q) := by
  rw [durationFromSecsF64] at h
  split at h
  · exact DResult.noConfusion h
  · exact ⟨(DResult.ok.inj h).symm, by assumption⟩

/-- Every `Circuit` successfully produced by the decoder tail carries the
`day` value that was passed in. -/
theorem decode_circuit_wc_rest_day {fields : List (List ℕ × JValue)}
    {day : ℕ} {u : List ℕ} {c : Circuit}
    (h : decode_circuit_wc_rest fields day u = .ok (some c)) :
    c.day = day := by
  rw [decode_circuit_wc_rest] at h
  rcases DResult.bind_eq_ok.mp h with ⟨dv, _, h⟩
  rcases DResult.bind_eq_ok.mp h with ⟨ds, _, h⟩
  rcases DResult.bind_eq_ok.mp h with ⟨domain, _, h⟩
  rcases DResult.bind_eq_ok.mp h with ⟨sv, _, h⟩
  rcases DResult.bind_eq_ok.mp h with ⟨sps, _, h⟩
  rcases DResult.bind_eq_ok.mp h with ⟨pv, _, h⟩
  rcases DResult.bind_eq_ok.mp h with ⟨pn, _, h⟩
  split at h
  · exact DResult.noConfusion h
  · rcases DResult.bind_eq_ok.mp h with ⟨cv, _, h⟩
    rcases DResult.bind_eq_ok.mp h with ⟨cells, _, h⟩
    rcases DResult.bind_eq_ok.mp h with ⟨uuid, _, h⟩
    split at h
    · exact DResult.noConfusion h
    · rcases DResult.bind_eq_ok.mp h with ⟨cellsArr, _, h⟩
      have hc := Option.some.inj (DResult.ok.inj h)
      rw [← hc]

theorem durAsSecs_eq_floor {r : ℚ} (h : 0 ≤ r) : durAsSecs r = ⌊r⌋₊ := by
  have hnum : 0 ≤ r.num := Rat.num_nonneg.mpr h
  rw [durAsSecs, ← Int.floor_toNat, Rat.floor_def]
  obtain ⟨m, hm⟩ : ∃ m : ℕ, r.num = (m : ℤ) :=
    ⟨r.num.toNat, (Int.toNat_of_nonneg hnum).symm⟩
  rw [hm, Int.toNat_natCast]
  have hcast : ((m / r.den : ℕ) : ℤ) = (m : ℤ) / (r.den : ℤ) := by norm_cast
  rw [← hcast, Int.toNat_natCast]

theorem dayFromWindow_some_inv {t q : ℚ} {day : ℕ}
    (h : dayFromWindow (some t) q = .ok day) :
    day = durAsSecs (max (q - t) 0) / 86400 + 1 := by
  simp only [dayFromWindow] at h
  split at h
  · exact DResult.noConfusion h
  · exact (DResult.ok.inj h).symm

/-- **C7 (amended).** The time filter of the `writecircuits` decoder, for
records whose `time_created` is representable as a `Duration` (non-negative
and below `2^64` seconds; a negative `time_created` *panics* in
`Duration::from_secs_f64` before the window test, see the counterexample):
(1) with a window `[min, max]` supplied, a record whose `time_created` lies
outside `[min, max]` is dropped by returning `Ok(None)`, not an error;
(2) every record kept with a window start `min` carries
`day = floor((time_created − min) / 86400) + 1`;
(3) every record kept without a window start carries `day = 0`. -/
theorem claim_C7_time_window :
    (∀ (fields : List (List ℕ × JValue)) (jn : JNum) (bmin bmax : ℚ)
        (u : List ℕ),
        objGet fields keyTimeCreated = some (.num jn) →
        0 ≤ jn.asF64 → jn.asF64 < 2 ^ 64 →
        (jn.asF64 < bmin ∨ bmax < jn.asF64) →
        decode_circuit_writecircuits (.obj fields) (some bmin) (some bmax) u =
          .ok none) ∧
    (∀ (fields : List (List ℕ × JValue)) (jn : JNum) (bmin : ℚ)
        (te : Option ℚ) (u : List ℕ) (c : Circuit),
        objGet fields keyTimeCreated = some (.num jn) →
        decode_circuit_writecircuits (.obj fields) (some bmin) te u =
          .ok (some c) →
        c.day = ⌊(jn.asF64 - bmin) / (86400 : ℚ)⌋₊ + 1) ∧
    (∀ (fields : List (List ℕ × JValue)) (te : Option ℚ) (u : List ℕ)
        (c : Circuit),
        decode_circuit_writecircuits (.obj fields) none te u = .ok (some c) →
        c.day = 0) := by
  refine ⟨?_, ?_, ?_⟩
  · intro fields jn bmin bmax u h1 h0 hbig hout
    have hk : jsonKey fields keyTimeCreated "key time_created missing" =
        .ok (.num jn) := by
      rw [jsonKey, h1]
    simp only [decode_circuit_writecircuits, hk, DResult.bind_ok]
    have hf : jsonAsF64 (JValue.num jn) "time_created to f64" =
        .ok jn.asF64 := rfl
    rw [hf, DResult.bind_ok]
    have hd : durationFromSecsF64 jn.asF64 = .ok jn.asF64 := by
      rw [durationFromSecsF64, if_neg]
      rintro (hx | hx) <;> linarith
    rw [hd, DResult.bind_ok]
    rcases hout with hx | hx <;> simp [hx]
  · intro fields jn bmin te u c h1 hdec
    have hk : jsonKey fields keyTimeCreated "key time_created missing" =
        .ok (.num jn) := by
      rw [jsonKey, h1]
    simp only [decode_circuit_writecircuits, hk, DResult.bind_ok] at hdec
    have hf : jsonAsF64 (JValue.num jn) "time_created to f64" =
        .ok jn.asF64 := rfl
    rw [hf, DResult.bind_ok] at hdec
    rcases DResult.bind_eq_ok.mp hdec with ⟨created, hcr, hdec⟩
    obtain ⟨rfl, -⟩ := durationFromSecsF64_ok_inv hcr
    split at hdec
    · exact Option.noConfusion (DResult.ok.inj hdec)
    · next hw =>
      have hge : bmin ≤ jn.asF64 := by
        by_contra hlt
        exact hw (by simp [not_le.mp hlt])
      rcases DResult.bind_eq_ok.mp hdec with ⟨day, hday, hrest⟩
      have hcday : c.day = day := decode_circuit_wc_rest_day hrest
      have hdval := dayFromWindow_some_inv hday
      have hsub : (0 : ℚ) ≤ jn.asF64 - bmin := sub_nonneg.mpr hge
      rw [hcday, hdval, max_eq_left hsub, durAsSecs_eq_floor hsub,
        ← Nat.floor_div_nat]
      norm_num
  · intro fields te u c hdec
    simp only [decode_circuit_writecircuits] at hdec
    rcases DResult.bind_eq_ok.mp hdec with ⟨tcv, -, hdec⟩
    rcases DResult.bind_eq_ok.mp hdec with ⟨tc, -, hdec⟩
    rcases DResult.bind_eq_ok.mp hdec with ⟨created, -, hdec⟩
    split at hdec
    · exact Option.noConfusion (DResult.ok.inj hdec)
    · rcases DResult.bind_eq_ok.mp hdec with ⟨day, hday, hrest⟩
      have hday0 : day = 0 := by
        simp only [dayFromWindow] at hday
        exact (DResult.ok.inj hday).symm
      rw [decode_circuit_wc_rest_day hrest, hday0]

/-- Witness for C7 at the spec's example: window `[T0, T0+86400]` with
`T0 = 1000000` and `time_created = T0 + 90000`, which is past the window
end and is dropped as `Ok(None)`. -/
theorem claim_C7_witness :
    decode_circuit_writecircuits
        (.obj [(keyTimeCreated, .num (.posInt 1090000))])
        (some 1000000) (some 1086400) [] = .ok none :=
  claim_C7_time_window.1 [(keyTimeCreated, .num (.posInt 1090000))]
    (.posInt 1090000) 1000000 1086400 [] rfl
    (by norm_num [JNum.asF64]) (by norm_num [JNum.asF64])
    (Or.inr (by norm_num [JNum.asF64]))

/-- **C7 counterexample.** The claim as stated ("a record whose
`time_created` falls outside `[min, max]` is dropped by returning `None`,
not an error") is false for a negative `time_created`: with window
`[86400, 172800]`, `time_created = -1` is outside the window, yet
`Duration::from_secs_f64(-1.0)` panics before the window test is reached —
the decoder aborts instead of returning `None`. -/
theorem claim_C7_counterexample :
    decode_circuit_writecircuits
        (.obj [(keyTimeCreated, .num (.negInt (-1)))])
        (some 86400) (some 172800) [] = .panic := by
  rfl

/-! ## Line-level decoding (claim C8)

`decode_circuit` receives the raw line; it strips the optional `"650 GWF "`
prefix, *ignores lines of at most one byte* (`json_s.len() <= 1`, the
source comment says "Ignore empty lines and \n"), and hands everything else
to `serde_json::from_str`.

`serde_json` is an external collaborator crate.  The model below covers the
JSON subset these tools consume — `null`, `true`/`false`, strings without
escape sequences, numbers without exponent notation, arrays and objects —
and reports anything else as a parse error.  It is exact on the behaviour
the theorems use: an input containing no JSON value at all (empty or
whitespace-only) fails with an end-of-file parse error, and a parse error
aborts the record with a hard error, not a soft skip. -/

def jsonWs (c : ℕ) : Bool := c = 32 ∨ c = 9 ∨ c = 10 ∨ c = 13

def skipWs (s : List ℕ) : List ℕ := s.dropWhile jsonWs

def isDigit (c : ℕ) : Bool := 48 ≤ c ∧ c ≤ 57

def digitsToNat (ds : List ℕ) : ℕ :=
  ds.foldl (fun acc d => acc * 10 + (d - 48)) 0

def parseLiteral (lit s : List ℕ) : Option (List ℕ) :=
  if lit.isPrefixOf s then some (s.drop lit.length) else none

/-- Parse a string body (after the opening quote); escape sequences are
outside the modelled subset. -/
def parseStr (s : List ℕ) : Except String (JValue × List ℕ) :=
  let content := s.takeWhile fun c => ¬(c = 34 ∨ c = 92)
  match s.drop content.length with
  | 34 :: r => .ok (.str content, r)
  | _ => .error "unsupported string syntax"

/-- Parse a number (integer, or decimal fraction; exponent notation is
outside the modelled subset).  Following `serde_json`, an unsigned integer
becomes `u64`, a negative integer `i64`, and a fractional number `f64`. -/
def parseNum (s : List ℕ) : Except String (JValue × List ℕ) :=
  let neg := decide (s.headD 0 = 45)
  let s1 := if neg then s.drop 1 else s
  let ds := s1.takeWhile isDigit
  if ds = [] then .error "expected digits"
  else
    let ip := digitsToNat ds
    match s1.drop ds.length with
    | 46 :: r =>
      let fs := r.takeWhile isDigit
      if fs = [] then .error "expected fraction digits"
      else
        let q : ℚ := (ip : ℚ) + (digitsToNat fs : ℚ) / ((10 : ℚ) ^ fs.length)
        .ok (.num (.float (if neg then -q else q)), r.drop fs.length)
    | 101 :: _ => .error "unsupported exponent syntax"
    | 69 :: _ => .error "unsupported exponent syntax"
    | s2 =>
      if neg then .ok (.num (.negInt (-(ip : ℤ))), s2)
      else .ok (.num (.posInt ip), s2)

mutual

def parseVal : ℕ → List ℕ → Except String (JValue × List ℕ)
  | 0, _ => .error "recursion limit exceeded"
  | fuel + 1, s =>
    match skipWs s with
    | [] => .error "EOF while parsing a value"
    | c :: rest =>
      if c = 110 then
        match parseLiteral (strLit "ull") rest with
        | some r => .ok (.null, r)
        | none => .error "expected null"
      else if c = 116 then
        match parseLiteral (strLit "rue") rest with
        | some r => .ok (.bool true, r)
        | none => .error "expected true"
      else if c = 102 then
        match parseLiteral (strLit "alse") rest with
        | some r => .ok (.bool false, r)
        | none => .error "expected false"
      else if c = 34 then parseStr rest
      else if c = 91 then
        match skipWs rest with
        | 93 :: r => .ok (.arr [], r)
        | s1 => parseArrItems fuel s1 []
      else if c = 123 then
        match skipWs rest with
        | 125 :: r => .ok (.obj [], r)
        | s1 => parseObjItems fuel s1 []
      else if c = 45 then parseNum (c :: rest)
      else if isDigit c then parseNum (c :: rest)
      else .error "expected value"

def parseArrItems : ℕ → List ℕ → List JValue →
    Except String (JValue × List ℕ)
  | 0, _, _ => .error "recursion limit exceeded"
  | fuel + 1, s, acc =>
    match parseVal fuel s with
    | .error m => .error m
    | .ok (v, r) =>
      match skipWs r with
      | 44 :: r2 => parseArrItems fuel r2 (acc ++ [v])
      | 93 :: r2 => .ok (.arr (acc ++ [v]), r2)
      | _ => .error "expected comma or bracket"

def parseObjItems : ℕ → List ℕ → List (List ℕ × JValue) →
    Except String (JValue × List ℕ)
  | 0, _, _ => .error "recursion limit exceeded"
  | fuel + 1, s, acc =>
    match skipWs s with
    | 34 :: r =>
      match parseStr r with
      | .error m => .error m
      | .ok (k, r2) =>
        match k with
        | .str ks =>
          match skipWs r2 with
          | 58 :: r3 =>
            match parseVal fuel r3 with
            | .error m => .error m
            | .ok (v, r4) =>
              match skipWs r4 with
              | 44 :: r5 => parseObjItems fuel r5 (acc ++ [(ks, v)])
              | 125 :: r5 => .ok (.obj (acc ++ [(ks, v)]), r5)
              | _ => .error "expected comma or brace"
          | _ => .error "expected colon"
        | _ => .error "expected string key"
    | _ => .error "expected string key"

end

/-- `serde_json::from_str` on the modelled subset: one JSON value followed
by at most trailing whitespace. -/
def serde_from_str (s : List ℕ) : Except String JValue :=
  match parseVal (2 * s.length + 2) s with
  | .error m => .error m
  | .ok (v, r) => if skipWs r = [] then .ok v else .error "trailing characters"

def prefix650 : List ℕ := strLit "650 GWF "

/-- `str::len` of the modelled string: its UTF-8 byte length. -/
def byteLen (s : List ℕ) : ℕ := (strBytes s).length

/-- The prefix-stripping step of `decode_circuit`
(`jsonl.strip_prefix("650 GWF ")`). -/
def strip650 (line : List ℕ) : List ℕ :=
  if prefix650.isPrefixOf line then line.drop prefix650.length else line

/-- `decode_circuit` from `examples/writecircuits.rs` on the raw line:
strip the prefix, return `Ok(None)` when at most one byte remains, parse
the JSON (`.context("Parsing jsonl root")?`), then decode the record. -/
def decode_circuit_line (line : List ℕ) (tb te : Option ℚ)
    (uuidStr : List ℕ) : DResult (Option Circuit) :=
  if byteLen (strip650 line) ≤ 1 then .ok none
  else
    match serde_from_str (strip650 line) with
    | .error _ => .error "Parsing jsonl root"
    | .ok v => decode_circuit_writecircuits v tb te uuidStr

theorem parseVal_ws (fuel : ℕ) (s : List ℕ) (hf : 0 < fuel)
    (hws : ∀ c ∈ s, jsonWs c = true) :
    parseVal fuel s = .error "EOF while parsing a value" := by
  cases fuel with
  | zero => exact absurd hf (by omega)
  | succ m =>
    have hnil : skipWs s = [] := by
      rw [skipWs, List.dropWhile_eq_nil_iff]
      exact hws
    simp only [parseVal, hnil]

/-- **C8 (amended).** `decode_circuit` returns `Ok(None)` (a soft skip)
exactly for lines whose content after stripping the optional `"650 GWF "`
prefix is at most one byte long — this covers the empty line and the lone
newline.  A whitespace-only line of two or more bytes is *not* skipped: it
reaches `serde_json::from_str`, which finds no JSON value and fails, so the
line aborts the run with a hard parse error. -/
theorem claim_C8_blank_lines (line : List ℕ) (tb te : Option ℚ)
    (u : List ℕ) :
    (byteLen (strip650 line) ≤ 1 →
      decode_circuit_line line tb te u = .ok none) ∧
    (2 ≤ byteLen (strip650 line) → (∀ c ∈ strip650 line, jsonWs c = true) →
      decode_circuit_line line tb te u = .error "Parsing jsonl root") := by
  constructor
  · intro h
    rw [decode_circuit_line, if_pos h]
  · intro h2 hws
    rw [decode_circuit_line, if_neg (by omega)]
    have hp : parseVal (2 * (strip650 line).length + 2) (strip650 line) =
        .error "EOF while parsing a value" :=
      parseVal_ws _ _ (by omega) hws
    rw [serde_from_str, hp]

/-- Witness for C8: a line that is exactly the prefix (stripped remainder
empty) is skipped as `Ok(None)`, while the two-byte whitespace line
`" \n"` is a hard parse error. -/
theorem claim_C8_witness :
    decode_circuit_line (strLit "650 GWF ") none none [] = .ok none ∧
      decode_circuit_line [32, 10] none none [] =
        .error "Parsing jsonl root" :=
  ⟨(claim_C8_blank_lines (strLit "650 GWF ") none none []).1 (by decide),
   (claim_C8_blank_lines [32, 10] none none []).2 (by decide) (by decide)⟩

/-- **C8 counterexample.** The claim as stated ("every line that is empty
or consists only of whitespace returns `None`") is false: the source only
skips lines with `json_s.len() <= 1`, so the whitespace-only two-space
line `"  "` is handed to the JSON parser and aborts with a hard error
instead of returning `None`. -/
theorem claim_C8_counterexample :
    decode_circuit_line [32, 32] none none [] =
      .error "Parsing jsonl root" := rfl

/-! ## The index-building pass (`examples/writeindex.rs`, claims C2, C3)

The single pass over the circuits dataset (lines 54-70) appends each
record's position to five groupings kept in `HashMap<K, Vec<u32>>` via
`entry(key).or_default().push(index)`.  A hash map with `Vec` payloads is
modelled as an association list in key-insertion order: `pushEntry` appends
the position to the existing entry of the key, or appends a fresh
single-position entry; the spec declares iteration order irrelevant, and
the theorems are stated up to permutation accordingly. -/

def pushEntry {K : Type} [DecidableEq K] :
    List (K × List ℕ) → K → ℕ → List (K × List ℕ)
  | [], k, v => [(k, [v])]
  | (k0, l) :: rest, k, v =>
    if k = k0 then (k0, l ++ [v]) :: rest
    else (k0, l) :: pushEntry rest k v

/-- Lookup the position list of a key (empty when absent). -/
def lkp {K : Type} [DecidableEq K] : List (K × List ℕ) → K → List ℕ
  | [], _ => []
  | (k0, l) :: rest, k => if k = k0 then l else lkp rest k

/-- The `as CircuitIndex` (`as u32`) cast that the source applies to each
position before pushing it (`writeindex.rs` line 60: `(begin + i) as
CircuitIndex`; `makedset.rs` line 110: `(wr_cursor + j) as u32`): a
wrapping truncation to 32 bits.  `src/lib.rs` documents the accompanying
precondition on `CircuitIndex`: "Requires that the length of the Circuit
array is less than 2**32". -/
def toU32 (n : ℕ) : ℕ := n % 2 ^ 32

/-- The indexing loop: positions are assigned in stream order (the chunked
reading of the source visits positions `0, 1, 2, …` in order; `enumPos`
below walks `begin + i`), and each position is truncated to `u32` by the
`as CircuitIndex` cast at the moment it is pushed. -/
def buildIndexAux {α K : Type} [DecidableEq K] (keyf : α → K) :
    List (K × List ℕ) → List (ℕ × α) → List (K × List ℕ)
  | m, [] => m
  | m, pc :: pcs =>
    buildIndexAux keyf (pushEntry m (keyf pc.2) (toU32 pc.1)) pcs

def enumPos {α : Type} : ℕ → List α → List (ℕ × α)
  | _, [] => []
  | i, a :: as => (i, a) :: enumPos (i + 1) as

def buildIndex {α K : Type} [DecidableEq K] (keyf : α → K) (cs : List α) :
    List (K × List ℕ) :=
  buildIndexAux keyf [] (enumPos 0 cs)

/-- `ci_uuid` from `examples/writeindex.rs`. -/
def ci_uuid (cs : List Circuit) : List (FA 32 × List ℕ) :=
  buildIndex (fun c => c.uuid) cs

/-- `ci_label` from `examples/writeindex.rs` (keyed by `circuit.label()`). -/
def ci_label (cs : List Circuit) : List (FA 44 × List ℕ) :=
  buildIndex Circuit.label cs

/-- `ci_day` from `examples/writeindex.rs`. -/
def ci_day (cs : List Circuit) : List (ℕ × List ℕ) :=
  buildIndex (fun c => c.day) cs

/-- `ci_port` from `examples/writeindex.rs`. -/
def ci_port (cs : List Circuit) : List (ℕ × List ℕ) :=
  buildIndex (fun c => c.port) cs

/-- `ci_len` from `examples/writeindex.rs`. -/
def ci_len (cs : List Circuit) : List (ℕ × List ℕ) :=
  buildIndex (fun c => c.len) cs

/-- The uuid-index preparation loop of `examples/writeindex.rs` lines
82-91 (`write_uuid_index` in `makedset.rs` performs the same check): every
key must hold exactly one position, otherwise the run aborts. -/
def prepare_uuid_index {K : Type} :
    List (K × List ℕ) → Except String (List (K × ℕ))
  | [] => .ok []
  | (k, [v]) :: rest =>
    (prepare_uuid_index rest).map fun out => (k, v) :: out
  | (_, _) :: _ => .error "Too many indieces"

theorem lkp_pushEntry {K : Type} [DecidableEq K]
    (m : List (K × List ℕ)) (k0 k : K) (v : ℕ) :
    lkp (pushEntry m k0 v) k =
      if k = k0 then lkp m k ++ [v] else lkp m k := by
  induction m with
  | nil =>
    simp only [pushEntry, lkp]
    split <;> rfl
  | cons e t ih =>
    obtain ⟨k1, l1⟩ := e
    simp only [pushEntry]
    by_cases h1 : k0 = k1
    · subst h1
      simp only [if_pos rfl, lkp]
      by_cases h2 : k = k0 <;> simp [h2]
    · rw [if_neg h1]
      simp only [lkp]
      by_cases h2 : k = k1
      · subst h2
        rw [if_pos rfl, if_neg (by intro h; exact h1 h.symm), if_pos rfl]
      · rw [if_neg h2, ih, if_neg h2]

theorem keys_pushEntry {K : Type} [DecidableEq K]
    (m : List (K × List ℕ)) (k0 : K) (v : ℕ) :
    (pushEntry m k0 v).map Prod.fst =
      if k0 ∈ m.map Prod.fst then m.map Prod.fst
      else m.map Prod.fst ++ [k0] := by
  induction m with
  | nil => simp [pushEntry]
  | cons e t ih =>
    obtain ⟨k1, l1⟩ := e
    simp only [pushEntry]
    by_cases h1 : k0 = k1
    · subst h1
      simp
    · rw [if_neg h1]
      simp only [List.map_cons, ih, List.mem_cons]
      have : ¬(k0 = k1) := h1
      by_cases h2 : k0 ∈ t.map Prod.fst <;> simp [h2, this]

theorem flatten_pushEntry {K : Type} [DecidableEq K]
    (m : List (K × List ℕ)) (k0 : K) (v : ℕ) :
    ((pushEntry m k0 v).map Prod.snd).flatten.Perm
      (v :: (m.map Prod.snd).flatten) := by
  induction m with
  | nil => simp [pushEntry]
  | cons e t ih =>
    obtain ⟨k1, l1⟩ := e
    simp only [pushEntry]
    by_cases h1 : k0 = k1
    · subst h1
      rw [if_pos rfl]
      simp only [List.map_cons, List.flatten_cons]
      have h2 : (l1 ++ [v]) ++ (t.map Prod.snd).flatten =
          l1 ++ (v :: (t.map Prod.snd).flatten) := by
        rw [List.append_assoc]
        rfl
      rw [h2]
      exact List.perm_middle
    · rw [if_neg h1]
      simp only [List.map_cons, List.flatten_cons]
      exact (ih.append_left l1).trans List.perm_middle

theorem lkp_buildIndexAux {α K : Type} [DecidableEq K] (keyf : α → K) :
    ∀ (pcs : List (ℕ × α)) (m : List (K × List ℕ)) (k : K),
      lkp (buildIndexAux keyf m pcs) k =
        lkp m k ++
          ((pcs.filter fun pc => decide (keyf pc.2 = k)).map
            fun pc => toU32 pc.1) := by
  intro pcs
  induction pcs with
  | nil => intro m k; simp [buildIndexAux]
  | cons pc t ih =>
    intro m k
    simp only [buildIndexAux]
    rw [ih, lkp_pushEntry]
    by_cases h : keyf pc.2 = k
    · rw [if_pos h.symm]
      simp [List.filter_cons, h]
    · rw [if_neg fun hk => h hk.symm]
      simp [List.filter_cons, h]

theorem keys_buildIndexAux_nodup {α K : Type} [DecidableEq K] (keyf : α → K) :
    ∀ (pcs : List (ℕ × α)) (m : List (K × List ℕ)),
      ((m.map Prod.fst).Nodup) →
      (((buildIndexAux keyf m pcs).map Prod.fst).Nodup) := by
  intro pcs
  induction pcs with
  | nil => intro m h; exact h
  | cons pc t ih =>
    intro m h
    simp only [buildIndexAux]
    refine ih _ ?_
    rw [keys_pushEntry]
    split
    · exact h
    · next hmem =>
      rw [← List.concat_eq_append]
      exact h.concat hmem

theorem mem_keys_buildIndexAux {α K : Type} [DecidableEq K] (keyf : α → K) :
    ∀ (pcs : List (ℕ × α)) (m : List (K × List ℕ)) (k : K),
      (k ∈ (buildIndexAux keyf m pcs).map Prod.fst ↔
        k ∈ m.map Prod.fst ∨ k ∈ pcs.map fun pc => keyf pc.2) := by
  intro pcs
  induction pcs with
  | nil => intro m k; simp [buildIndexAux]
  | cons pc t ih =>
    intro m k
    simp only [buildIndexAux]
    rw [ih]
    rw [keys_pushEntry]
    by_cases hmem : keyf pc.2 ∈ m.map Prod.fst
    · rw [if_pos hmem]
      simp only [List.map_cons, List.mem_cons]
      aesop
    · rw [if_neg hmem]
      simp only [List.mem_append, List.mem_singleton, List.map_cons,
        List.mem_cons]
      aesop

theorem flatten_buildIndexAux {α K : Type} [DecidableEq K] (keyf : α → K) :
    ∀ (pcs : List (ℕ × α)) (m : List (K × List ℕ)),
      (((buildIndexAux keyf m pcs).map Prod.snd).flatten).Perm
        ((m.map Prod.snd).flatten ++ pcs.map fun pc => toU32 pc.1) := by
  intro pcs
  induction pcs with
  | nil => intro m; simp [buildIndexAux]
  | cons pc t ih =>
    intro m
    simp only [buildIndexAux, List.map_cons]
    refine (ih _).trans ?_
    have hp := flatten_pushEntry m (keyf pc.2) (toU32 pc.1)
    refine (hp.append_right _).trans ?_
    rw [List.cons_append]
    exact List.perm_middle.symm

theorem mem_of_nodup_keys {K : Type} [DecidableEq K] :
    ∀ (m : List (K × List ℕ)), ((m.map Prod.fst).Nodup) →
      ∀ (k : K) (l : List ℕ),
        ((k, l) ∈ m ↔ k ∈ m.map Prod.fst ∧ lkp m k = l) := by
  intro m
  induction m with
  | nil => intro _ k l; simp
  | cons e t ih =>
    intro hnd k l
    obtain ⟨k1, l1⟩ := e
    simp only [List.map_cons, List.nodup_cons] at hnd
    simp only [List.mem_cons, List.map_cons, lkp]
    constructor
    · rintro (h | h)
      · obtain ⟨hk, hl⟩ := Prod.mk.injEq .. ▸ h
        rw [Prod.mk.injEq] at h
        exact ⟨Or.inl h.1, by rw [if_pos h.1, h.2]⟩
      · have hm := (ih hnd.2 k l).mp h
        have hk1 : k ≠ k1 := by
          intro hk
          exact hnd.1 (hk ▸ hm.1)
        exact ⟨Or.inr hm.1, by rw [if_neg hk1]; exact hm.2⟩
    · rintro ⟨hk | hk, hl⟩
      · subst hk
        rw [if_pos rfl] at hl
        exact Or.inl (by rw [hl])
      · by_cases hk1 : k = k1
        · subst hk1
          exact absurd hk hnd.1
        · rw [if_neg hk1] at hl
          exact Or.inr ((ih hnd.2 k l).mpr ⟨hk, hl⟩)

theorem enumPos_map_fst {α : Type} :
    ∀ (l : List α) (i : ℕ),
      (enumPos i l).map Prod.fst = List.range' i l.length := by
  intro l
  induction l with
  | nil => intro i; simp [enumPos]
  | cons a t ih =>
    intro i
    simp only [enumPos, List.map_cons, List.length_cons, List.range'_succ]
    rw [ih]

theorem mem_enumPos {α : Type} :
    ∀ (l : List α) (i p : ℕ) (a : α), (p, a) ∈ enumPos i l →
      ∃ j, ∃ h : j < l.length, p = i + j ∧ l.get ⟨j, h⟩ = a := by
  intro l
  induction l with
  | nil => intro i p a h; simp [enumPos] at h
  | cons b t ih =>
    intro i p a h
    simp only [enumPos, List.mem_cons] at h
    rcases h with h | h
    · rw [Prod.mk.injEq] at h
      exact ⟨0, by simp, by omega, by simp [h.2.symm]⟩
    · rcases ih (i + 1) p a h with ⟨j, hj, hp, hget⟩
      exact ⟨j + 1, by simpa using hj, by omega, by simpa using hget⟩

theorem enumPos_mem_of_get {α : Type} :
    ∀ (l : List α) (i j : ℕ) (h : j < l.length),
      (i + j, l.get ⟨j, h⟩) ∈ enumPos i l := by
  intro l
  induction l with
  | nil => intro i j h; simp at h
  | cons b t ih =>
    intro i j h
    cases j with
    | zero => simp [enumPos]
    | succ m =>
      simp only [enumPos, List.mem_cons]
      refine Or.inr ?_
      have := ih (i + 1) m (by simpa using h)
      have harith : i + (m + 1) = i + 1 + m := by omega
      rw [harith]
      simpa using this

theorem enumPos_nodup {α : Type} (l : List α) (i : ℕ) :
    (enumPos i l).Nodup := by
  have := enumPos_map_fst l i
  have hr : (List.range' i l.length).Nodup := List.nodup_range' ..
  rw [← this] at hr
  exact hr.of_map Prod.fst

/-- The spec's index-completeness property for one key function: the
positions stored across all groups of the index are exactly
`{0, …, |R|-1}`, each exactly once (stated as a permutation of
`range |R|`), and every position sits in the group keyed by its own
record's key value. -/
def IndexComplete {α K : Type} [DecidableEq K] (keyf : α → K)
    (idx : List (K × List ℕ)) (cs : List α) : Prop :=
  ((idx.map Prod.snd).flatten).Perm (List.range cs.length) ∧
    ∀ k l, (k, l) ∈ idx → ∀ p ∈ l,
      ∃ h : p < cs.length, keyf (cs.get ⟨p, h⟩) = k

theorem buildIndex_keys_nodup {α K : Type} [DecidableEq K] (keyf : α → K)
    (cs : List α) : (((buildIndex keyf cs).map Prod.fst).Nodup) :=
  keys_buildIndexAux_nodup keyf (enumPos 0 cs) [] (by simp)

theorem buildIndex_lkp {α K : Type} [DecidableEq K] (keyf : α → K)
    (cs : List α) (k : K) :
    lkp (buildIndex keyf cs) k =
      ((enumPos 0 cs).filter fun pc => decide (keyf pc.2 = k)).map
        (fun pc => toU32 pc.1) := by
  rw [buildIndex, lkp_buildIndexAux]
  rfl

theorem enumPos_map_toU32 {α : Type} :
    ∀ (l : List α) (i : ℕ), i + l.length ≤ 2 ^ 32 →
      ((enumPos i l).map fun pc => toU32 pc.1) = List.range' i l.length := by
  intro l
  induction l with
  | nil => intro i h; simp [enumPos]
  | cons a t ih =>
    intro i h
    rw [List.length_cons] at h
    simp only [enumPos, List.map_cons, List.length_cons, List.range'_succ]
    rw [ih (i + 1) (by omega)]
    congr 1
    simp only [toU32]
    exact Nat.mod_eq_of_lt (by omega)

theorem buildIndex_complete {α K : Type} [DecidableEq K] (keyf : α → K)
    (cs : List α) (h32 : cs.length < 2 ^ 32) :
    IndexComplete keyf (buildIndex keyf cs) cs := by
  constructor
  · refine (flatten_buildIndexAux keyf (enumPos 0 cs) []).trans ?_
    rw [enumPos_map_toU32 cs 0 (by omega), ← List.range_eq_range']
    simp
  · intro k l hmem p hp
    have hnd := buildIndex_keys_nodup keyf cs
    have hlkp := (mem_of_nodup_keys _ hnd k l).mp hmem
    rw [buildIndex_lkp] at hlkp
    rw [← hlkp.2] at hp
    rcases List.mem_map.mp hp with ⟨pc, hpcf, hpc1⟩
    rcases List.mem_filter.mp hpcf with ⟨hpce, hpck⟩
    rcases mem_enumPos cs 0 pc.1 pc.2 (by
      rw [show ((pc.1, pc.2) : ℕ × α) = pc from rfl]
      exact hpce) with ⟨j, hj, hpj, hget⟩
    have hpj2 : p = j := by
      rw [← hpc1, hpj]
      simp only [toU32, Nat.zero_add]
      exact Nat.mod_eq_of_lt (by omega)
    subst hpj2
    refine ⟨hj, ?_⟩
    rw [hget]
    exact of_decide_eq_true hpck

/-- **C2.** For every record sequence shorter than `2^32` records — the
precondition documented on `CircuitIndex` in `src/lib.rs` ("Requires that
the length of the Circuit array is less than 2**32"), under which the
`as u32` position cast is lossless — each of the five single-pass indices
of `writeindex` (`ci_uuid`, `ci_label`, `ci_day`, `ci_port`, `ci_len`)
assigns every record position to exactly one group — the group keyed by
that record's key value — and the union of all groups' position lists is
exactly `{0, …, |R|-1}`, each position occurring exactly once across the
index. -/
theorem claim_C2_index_partition (cs : List Circuit)
    (h32 : cs.length < 2 ^ 32) :
    IndexComplete (fun c => c.uuid) (ci_uuid cs) cs ∧
      IndexComplete Circuit.label (ci_label cs) cs ∧
      IndexComplete (fun c => c.day) (ci_day cs) cs ∧
      IndexComplete (fun c => c.port) (ci_port cs) cs ∧
      IndexComplete (fun c => c.len) (ci_len cs) cs :=
  ⟨buildIndex_complete _ cs h32, buildIndex_complete _ cs h32,
    buildIndex_complete _ cs h32, buildIndex_complete _ cs h32,
    buildIndex_complete _ cs h32⟩

theorem two_mem_le_length {α : Type} {a b : α} :
    ∀ {l : List α}, a ∈ l → b ∈ l → a ≠ b → 2 ≤ l.length := by
  intro l
  induction l with
  | nil => intro ha; simp at ha
  | cons c t ih =>
    intro ha hb hne
    rcases List.mem_cons.mp ha with rfl | hat
    · rcases List.mem_cons.mp hb with rfl | hbt
      · exact absurd rfl hne
      · have : 1 ≤ t.length := List.length_pos.mpr (List.ne_nil_of_mem hbt)
        simp only [List.length_cons]
        omega
    · have : 1 ≤ t.length := List.length_pos.mpr (List.ne_nil_of_mem hat)
      simp only [List.length_cons]
      omega

theorem nodup_two_of_length {α : Type} {l : List α} (h2 : 2 ≤ l.length)
    (hnd : l.Nodup) : ∃ x ∈ l, ∃ y ∈ l, x ≠ y := by
  match l with
  | [] => simp at h2
  | [x] => simp at h2
  | x :: y :: t =>
    refine ⟨x, by simp, y, by simp, ?_⟩
    rcases List.nodup_cons.mp hnd with ⟨hx, -⟩
    intro hxy
    exact hx (hxy ▸ List.mem_cons_self y t)

theorem prepare_uuid_index_error_of {K : Type} :
    ∀ (m : List (K × List ℕ)) (k : K) (l : List ℕ),
      (k, l) ∈ m → l.length ≠ 1 →
      prepare_uuid_index m = .error "Too many indieces" := by
  intro m
  induction m with
  | nil => intro k l h; simp at h
  | cons e t ih =>
    intro k l hmem hlen
    obtain ⟨k0, l0⟩ := e
    rcases List.mem_cons.mp hmem with he | ht
    · rw [Prod.mk.injEq] at he
      obtain ⟨rfl, rfl⟩ := he
      match l with
      | [] => rfl
      | [v] => exact absurd rfl hlen
      | v :: w :: r => rfl
    · match l0 with
      | [] => rfl
      | [v] =>
        simp only [prepare_uuid_index, ih k l ht hlen]
        rfl
      | v :: w :: r => rfl

theorem prepare_uuid_index_ok_of {K : Type} :
    ∀ (m : List (K × List ℕ)), (∀ e ∈ m, ∃ v, e.2 = [v]) →
      prepare_uuid_index m = .ok (m.map fun e => (e.1, e.2.headD 0)) := by
  intro m
  induction m with
  | nil => intro _; rfl
  | cons e t ih =>
    intro h
    obtain ⟨k0, l0⟩ := e
    rcases h (k0, l0) (List.mem_cons_self _ _) with ⟨v, hv⟩
    simp only at hv
    subst hv
    simp only [prepare_uuid_index,
      ih fun e he => h e (List.mem_cons_of_mem _ he)]
    rfl

theorem map_headD_eq_flatten {K : Type} :
    ∀ (m : List (K × List ℕ)), (∀ e ∈ m, ∃ v, e.2 = [v]) →
      (m.map fun e => e.2.headD 0) = (m.map Prod.snd).flatten := by
  intro m
  induction m with
  | nil => intro _; rfl
  | cons e t ih =>
    intro h
    rcases h e (List.mem_cons_self _ _) with ⟨v, hv⟩
    simp only [List.map_cons, List.flatten_cons, hv,
      ih fun x hx => h x (List.mem_cons_of_mem _ hx)]
    rfl

/-- **C3.** Building the uuid index: (a) a record sequence containing two
records with equal uuid makes the uniqueness check fail with the hard
duplicate-identifier error (the run aborts); (b) conversely, for a sequence
shorter than `2^32` records (the documented `CircuitIndex` precondition)
with pairwise distinct uuids the check succeeds and the resulting index
maps each uuid key to exactly one position — the positions are exactly
`{0, …, |R|-1}` and each entry's key is the uuid of the record at its
position. -/
theorem claim_C3_uuid_uniqueness :
    (∀ (cs : List Circuit) (i j : ℕ) (hi : i < cs.length)
        (hj : j < cs.length), i ≠ j →
        (cs.get ⟨i, hi⟩).uuid = (cs.get ⟨j, hj⟩).uuid →
        prepare_uuid_index (ci_uuid cs) = .error "Too many indieces") ∧
    (∀ cs : List Circuit, cs.length < 2 ^ 32 →
        cs.Pairwise (fun a b => a.uuid ≠ b.uuid) →
        ∃ out, prepare_uuid_index (ci_uuid cs) = .ok out ∧
          (out.map Prod.snd).Perm (List.range cs.length) ∧
          ∀ e ∈ out, ∃ h : e.2 < cs.length,
            (cs.get ⟨e.2, h⟩).uuid = e.1) := by
  constructor
  · intro cs i j hi hj hij huuid
    have hie : (i, cs.get ⟨i, hi⟩) ∈ enumPos 0 cs := by
      simpa using enumPos_mem_of_get cs 0 i hi
    have hje : (j, cs.get ⟨j, hj⟩) ∈ enumPos 0 cs := by
      simpa using enumPos_mem_of_get cs 0 j hj
    have hnd := buildIndex_keys_nodup (fun c => c.uuid) cs
    have hkeys : (cs.get ⟨i, hi⟩).uuid ∈
        (buildIndex (fun c => c.uuid) cs).map Prod.fst := by
      rw [buildIndex, mem_keys_buildIndexAux]
      exact Or.inr (List.mem_map.mpr ⟨(i, cs.get ⟨i, hi⟩), hie, rfl⟩)
    have hentry : ((cs.get ⟨i, hi⟩).uuid,
        lkp (buildIndex (fun c => c.uuid) cs) (cs.get ⟨i, hi⟩).uuid) ∈
        buildIndex (fun c => c.uuid) cs :=
      (mem_of_nodup_keys _ hnd _ _).mpr ⟨hkeys, rfl⟩
    have hif : ((i, cs.get ⟨i, hi⟩) : ℕ × Circuit) ∈
        (enumPos 0 cs).filter
          (fun pc => decide (pc.2.uuid = (cs.get ⟨i, hi⟩).uuid)) :=
      List.mem_filter.mpr ⟨hie, decide_eq_true rfl⟩
    have hjf : ((j, cs.get ⟨j, hj⟩) : ℕ × Circuit) ∈
        (enumPos 0 cs).filter
          (fun pc => decide (pc.2.uuid = (cs.get ⟨i, hi⟩).uuid)) :=
      List.mem_filter.mpr ⟨hje, decide_eq_true huuid.symm⟩
    have hpne : ((i, cs.get ⟨i, hi⟩) : ℕ × Circuit) ≠ (j, cs.get ⟨j, hj⟩) :=
      fun hq => hij (congrArg Prod.fst hq)
    have h2 := two_mem_le_length hif hjf hpne
    have hlen2 : 2 ≤ (lkp (buildIndex (fun c => c.uuid) cs)
        (cs.get ⟨i, hi⟩).uuid).length := by
      rw [buildIndex_lkp, List.length_map]
      exact h2
    exact prepare_uuid_index_error_of _ _ _ hentry (by omega)
  · intro cs h32 hpw
    have hnd := buildIndex_keys_nodup (fun c => c.uuid) cs
    have hsing : ∀ e ∈ ci_uuid cs, ∃ v, e.2 = [v] := by
      intro e he
      obtain ⟨k, l⟩ := e
      have hml := (mem_of_nodup_keys _ hnd k l).mp he
      have hkeys := hml.1
      have hl : l = lkp (buildIndex (fun c => c.uuid) cs) k := hml.2.symm
      rw [buildIndex, mem_keys_buildIndexAux] at hkeys
      rcases hkeys with h | hkeys
      · simp at h
      rcases List.mem_map.mp hkeys with ⟨pc, hpce, hpck⟩
      have hlen1 : 1 ≤ l.length := by
        rw [hl, buildIndex_lkp]
        have hmm : toU32 pc.1 ∈ (((enumPos 0 cs).filter fun pc2 =>
            decide (pc2.2.uuid = k)).map fun pc2 => toU32 pc2.1) :=
          List.mem_map.mpr ⟨pc,
            List.mem_filter.mpr ⟨hpce, decide_eq_true hpck⟩, rfl⟩
        exact List.length_pos.mpr (List.ne_nil_of_mem hmm)
      have hle1 : l.length ≤ 1 := by
        by_contra hgt
        have h2 : 2 ≤ l.length := by omega
        have hsub : l.Sublist
            ((enumPos 0 cs).map fun pc2 => toU32 pc2.1) := by
          rw [hl, buildIndex_lkp]
          exact (List.filter_sublist _).map _
        have hlnd : l.Nodup := by
          refine hsub.nodup ?_
          rw [enumPos_map_toU32 cs 0 (by omega)]
          exact List.nodup_range' ..
        obtain ⟨x, hx, y, hy, hxy⟩ := nodup_two_of_length h2 hlnd
        rw [hl, buildIndex_lkp] at hx hy
        rcases List.mem_map.mp hx with ⟨pcx, hpcxf, hpcx1⟩
        rcases List.mem_map.mp hy with ⟨pcy, hpcyf, hpcy1⟩
        rcases List.mem_filter.mp hpcxf with ⟨hpcxe, hpcxk⟩
        rcases List.mem_filter.mp hpcyf with ⟨hpcye, hpcyk⟩
        rcases mem_enumPos cs 0 pcx.1 pcx.2 hpcxe with ⟨jx, hjx, hpx, hgx⟩
        rcases mem_enumPos cs 0 pcy.1 pcy.2 hpcye with ⟨jy, hjy, hpy, hgy⟩
        have hxj : x = jx := by
          rw [← hpcx1, hpx]
          simp only [toU32, Nat.zero_add]
          exact Nat.mod_eq_of_lt (by omega)
        have hyj : y = jy := by
          rw [← hpcy1, hpy]
          simp only [toU32, Nat.zero_add]
          exact Nat.mod_eq_of_lt (by omega)
        have hjne : jx ≠ jy := by omega
        have hxk : (cs.get ⟨jx, hjx⟩).uuid = k := by
          rw [hgx]; exact of_decide_eq_true hpcxk
        have hyk : (cs.get ⟨jy, hjy⟩).uuid = k := by
          rw [hgy]; exact of_decide_eq_true hpcyk
        have hpwg := List.pairwise_iff_getElem.mp hpw
        rcases Nat.lt_or_ge jx jy with hlt | hge
        · exact (hpwg jx jy hjx hjy hlt) (hxk.trans hyk.symm)
        · have hlt2 : jy < jx := by omega
          exact (hpwg jy jx hjy hjx hlt2) (hyk.trans hxk.symm)
      have hll : l.length = 1 := Nat.le_antisymm hle1 hlen1
      exact List.length_eq_one.mp hll
    refine ⟨(ci_uuid cs).map fun e => (e.1, e.2.headD 0),
      prepare_uuid_index_ok_of _ hsing, ?_, ?_⟩
    · have hperm := (buildIndex_complete (fun c => c.uuid) cs h32).1
      have hmm : (((ci_uuid cs).map fun e => (e.1, e.2.headD 0)).map
          Prod.snd) = (ci_uuid cs).map fun e => e.2.headD 0 := by
        rw [List.map_map]
        rfl
      rw [hmm, map_headD_eq_flatten _ hsing]
      exact hperm
    · intro e he
      rcases List.mem_map.mp he with ⟨e0, he0, rfl⟩
      rcases hsing e0 he0 with ⟨v, hv⟩
      have hvm : v ∈ e0.2 := by rw [hv]; exact List.mem_cons_self v []
      have he0b : (e0.1, e0.2) ∈ buildIndex (fun c => c.uuid) cs := by
        rw [ci_uuid] at he0
        simpa using he0
      have hcomp := (buildIndex_complete (fun c => c.uuid) cs h32).2 e0.1
        e0.2 he0b v hvm
      rcases hcomp with ⟨h, hk⟩
      refine ⟨by simpa [hv] using h, ?_⟩
      have : e0.2.headD 0 = v := by rw [hv]; rfl
      simp only [this]
      exact hk

/-- A minimal concrete circuit used by the C3 witness. -/
def circA : Circuit :=
  { uuid := faNull 32
    domain := faNull 44
    shortest_private_suffix := faNull 44
    day := 0
    port := 0
    len := 0
    cells := [] }

/-- Witness for C3: two copies of the same record abort the uuid index with
the duplicate error, while a singleton sequence succeeds with a one-entry
index. -/
theorem claim_C3_witness :
    prepare_uuid_index (ci_uuid [circA, circA]) =
        .error "Too many indieces" ∧
      ∃ out, prepare_uuid_index (ci_uuid [circA]) = .ok out ∧
        (out.map Prod.snd).Perm (List.range [circA].length) ∧
        ∀ e ∈ out, ∃ h : e.2 < [circA].length,
          ([circA].get ⟨e.2, h⟩).uuid = e.1 :=
  ⟨claim_C3_uuid_uniqueness.1 [circA, circA] 0 1 (by simp) (by simp)
      (by omega) rfl,
    claim_C3_uuid_uniqueness.2 [circA] (by norm_num) (by simp)⟩

/-- Witness for C2 at a singleton record sequence (length `1 < 2^32`). -/
theorem claim_C2_witness :
    IndexComplete (fun c => c.uuid) (ci_uuid [circA]) [circA] ∧
      IndexComplete Circuit.label (ci_label [circA]) [circA] ∧
      IndexComplete (fun c => c.day) (ci_day [circA]) [circA] ∧
      IndexComplete (fun c => c.port) (ci_port [circA]) [circA] ∧
      IndexComplete (fun c => c.len) (ci_len [circA]) [circA] :=
  claim_C2_index_partition [circA] (by norm_num)
